import Mathlib

/-!
Verification of the chunked WeChat-webhook delivery pipeline in
daily_stock_analysis, file notification.py, class NotificationService.

Python strings are modelled as lists of Unicode scalar values
(Lean Char), which matches Python str semantics: indexing and slicing
are by codepoint, and encoding to UTF-8 contributes Char.utf8Size
bytes per codepoint.
-/

namespace DailyStock

/-- Model of a Python str: a sequence of Unicode codepoints. -/
abbrev Str := List Char

/-- Byte length of the UTF-8 encoding of a string, the model of the
Python expression len(s.encode(utf-8)). -/
def utf8Len (s : Str) : Nat := (s.map Char.utf8Size).sum

/-- Model of the Python newline split content.split at line 806:
splits on every newline character, keeps empty pieces, and never
returns an empty list. -/
def splitOnNL : Str → List Str
  | [] => [[]]
  | c :: rest =>
    if c = '\n' then [] :: splitOnNL rest
    else
      match splitOnNL rest with
      | [] => [[c]]
      | l :: ls => (c :: l) :: ls

/-- Model of the Python newline join applied to a list of pieces, as
used at lines 817, 832 and 842 of notification.py. -/
def joinNL : List Str → Str
  | [] => []
  | [l] => l
  | l :: ls => l ++ '\n' :: joinNL ls

/-- Running byte size the accumulator tracks: each line counted with a
trailing newline, as in line 810 of notification.py. -/
def trackSize (cur : List Str) : Nat := (cur.map (fun l => utf8Len l + 1)).sum

/-- Chunking target budget, MAX_BYTE_LENGTH = 2000 at line 789. -/
def MAX_BYTE_LENGTH : Nat := 2000

/-- Transport hard maximum, 4096 bytes, line 856. -/
def HARD_MAX : Nat := 4096

/-- Forced-slice loop, lines 825-826 of notification.py:
for j in range(0, len(line), limit): chunks.append(line[j:j+limit]).
The j-th slice starts at codepoint j*limit and takes limit codepoints,
and range(0, n, limit) has ceil(n/limit) steps; Python slicing is by
codepoint, so each slice is whole codepoints. The source always
passes limit = 2000 // 4 = 500 (range raises on a zero step). -/
def sliceChunks (limit : Nat) (line : Str) : List Str :=
  (List.range ((line.length + limit - 1) / limit)).map
    (fun j => (line.drop (j * limit)).take limit)

/-- Main chunking loop of send_to_wechat, lines 808-842 of
notification.py, processing the split lines with the accumulator
current_chunk_lines (cur) and current_chunk_size (curSize). -/
def chunkLines : List Str → List Str → Nat → List Str
  | [], cur, _ => if cur = [] then [] else [joinNL cur]
  | line :: rest, cur, curSize =>
    let lineSize := utf8Len line + 1
    if lineSize > MAX_BYTE_LENGTH then
      (if cur = [] then [] else [joinNL cur]) ++
        sliceChunks (MAX_BYTE_LENGTH / 4) line ++ chunkLines rest [] 0
    else if curSize + lineSize > MAX_BYTE_LENGTH then
      joinNL cur :: chunkLines rest [line] lineSize
    else
      chunkLines rest (cur ++ [line]) (curSize + lineSize)

/-- Chunks produced for an over-budget content: lines 806-842. -/
def wechatChunks (content : Str) : List Str :=
  chunkLines (splitOnNL content) [] 0

/-- Instrumented copy of chunkLines that tags each emitted chunk with
whether it came from the forced-slice branch (true) or from the
line-accumulation path (false); erases to chunkLines. -/
def chunkLinesT : List Str → List Str → Nat → List (Bool × Str)
  | [], cur, _ => if cur = [] then [] else [(false, joinNL cur)]
  | line :: rest, cur, curSize =>
    let lineSize := utf8Len line + 1
    if lineSize > MAX_BYTE_LENGTH then
      (if cur = [] then [] else [(false, joinNL cur)]) ++
        (sliceChunks (MAX_BYTE_LENGTH / 4) line).map (fun s => (true, s)) ++
        chunkLinesT rest [] 0
    else if curSize + lineSize > MAX_BYTE_LENGTH then
      (false, joinNL cur) :: chunkLinesT rest [line] lineSize
    else
      chunkLinesT rest (cur ++ [line]) (curSize + lineSize)

/-- Tagged chunks of a content. -/
def wechatChunksT (content : Str) : List (Bool × Str) :=
  chunkLinesT (splitOnNL content) [] 0

/-- Pagination marker f"({i}/{n})" of line 851 (with the 1-based index
already substituted). -/
def pageMarker (i n : Nat) : Str :=
  '(' :: (Nat.toDigits 10 i ++ '/' :: (Nat.toDigits 10 n ++ [')']))

/-- Marker prefixing of lines 850-853: with more than one chunk the
0-based chunk i gets the marker line "(i+1/n)" and a newline. -/
def paginateChunk (i n : Nat) (chunk : Str) : Str :=
  if n > 1 then pageMarker (i + 1) n ++ '\n' :: chunk else chunk

/-- Truncation suffix "\n...(截断)" appended at line 858. -/
def truncNotice : Str := '\n' :: "...(截断)".data

/-- Size re-check of lines 856-858: if the paginated content exceeds
4096 bytes it is cut to its first 1000 codepoints plus the notice. -/
def finalizeMsg (p : Str) : Str :=
  if utf8Len p > HARD_MAX then p.take 1000 ++ truncNotice else p

/-- Message finally handed to _send_single_message for the 0-based
chunk i out of n, lines 848-861. -/
def sentMessage (i n : Nat) (chunk : Str) : Str :=
  finalizeMsg (paginateChunk i n chunk)

/-- Ordered list of the messages the chunked path hands to
_send_single_message for one over-budget content. -/
def sentMessages (content : Str) : List Str :=
  (List.range (wechatChunks content).length).map
    (fun i => sentMessage i (wechatChunks content).length
      ((wechatChunks content).getD i []))

/-- Outcome of one _send_single_message call as seen by its callers:
delivered (returned True), remote-rejected (returned False), or a
network exception (raised; callers catch it). -/
inductive DeliveryOutcome
  | delivered
  | remoteRejected
  | transportFailed
deriving DecidableEq

/-- The boolean a caller that catches exceptions extracts from one
delivery attempt: True only for a delivered outcome. -/
def deliverBool (d : Str → DeliveryOutcome) (msg : Str) : Bool :=
  match d msg with
  | .delivered => true
  | _ => false

/-- Model of is_available (lines 47-49): bool(self._webhook_url),
where the url may be None or an empty or non-empty string. -/
def is_available (url : Option Str) : Bool :=
  match url with
  | none => false
  | some s => !s.isEmpty

/-- Model of send_to_wechat (lines 761-869), abstracted over the
delivery outcome of each wire message. Returns the ordered list of
message texts handed to _send_single_message together with the boolean
result: False when unavailable, the single delivery result on the
short path, and success_count == total_chunks on the chunked path. -/
def sendToWechat (url : Option Str) (content : Str)
    (d : Str → DeliveryOutcome) : List Str × Bool :=
  if is_available url = false then ([], false)
  else if utf8Len content ≤ MAX_BYTE_LENGTH then
    ([content], deliverBool d content)
  else
    (sentMessages content,
      ((sentMessages content).filter (deliverBool d)).length ==
        (sentMessages content).length)

/-- Model of send_batch_notifications (lines 664-690): nothing when
unavailable, otherwise one send_to_wechat call for the summary then
one per stock message, in order; the formatting of the messages is
out of scope and they are taken as given. Returns the attempted
message list of every send_to_wechat call, in order. -/
def sendBatch (url : Option Str) (summary : Str) (stockMsgs : List Str)
    (d : Str → DeliveryOutcome) : List (List Str) :=
  if is_available url = false then []
  else
    (sendToWechat url summary d).1 ::
      stockMsgs.map (fun m => (sendToWechat url m d).1)

/-- Model of the response classification in _send_single_message
(lines 886-896): success exactly when the HTTP status is 200 and the
errcode field of the JSON body is present and 0 (result.get returning
None compares unequal to 0). -/
def classifyResponse (status : Nat) (errcode : Option Int) : Bool :=
  if status = 200 then
    match errcode with
    | some v => v == 0
    | none => false
  else false

/-- Sample over-budget content used as a concrete test input: a
newline, then one 1999-byte line (499 four-byte codepoints plus three
ASCII letters), then a newline - 2001 UTF-8 bytes in total, one byte
over the chunking budget. -/
def sampleOverBudget : Str :=
  '\n' :: (List.replicate 499 '𠀀' ++ ['a', 'a', 'a', '\n'])

/-! Basic lemmas about the embedding. -/

theorem utf8Size_le_four (c : Char) : c.utf8Size ≤ 4 := by
  unfold Char.utf8Size
  simp only []
  split <;> [skip; split <;> [skip; split]] <;> norm_num

theorem utf8Len_nil : utf8Len [] = 0 := rfl

theorem utf8Len_cons (c : Char) (s : Str) :
    utf8Len (c :: s) = c.utf8Size + utf8Len s := by
  simp [utf8Len]

theorem utf8Len_append (a b : Str) :
    utf8Len (a ++ b) = utf8Len a + utf8Len b := by
  simp [utf8Len]

theorem utf8Len_le_four_mul_length (s : Str) : utf8Len s ≤ 4 * s.length := by
  induction s with
  | nil => simp [utf8Len]
  | cons c s ih =>
    rw [utf8Len_cons]
    have := utf8Size_le_four c
    simp only [List.length_cons]
    omega

theorem splitOnNL_ne_nil (s : Str) : splitOnNL s ≠ [] := by
  cases s with
  | nil => simp [splitOnNL]
  | cons c rest =>
    simp only [splitOnNL]
    split
    · simp
    · cases h : splitOnNL rest <;> simp

theorem joinNL_cons_cons (l l' : Str) (ls : List Str) :
    joinNL (l :: l' :: ls) = l ++ '\n' :: joinNL (l' :: ls) := by
  simp [joinNL]

theorem joinNL_splitOnNL (s : Str) : joinNL (splitOnNL s) = s := by
  induction s with
  | nil => simp [splitOnNL, joinNL]
  | cons c rest ih =>
    simp only [splitOnNL]
    split
    · rename_i hc
      subst hc
      cases h : splitOnNL rest with
      | nil => exact absurd h (splitOnNL_ne_nil rest)
      | cons l ls =>
        rw [h] at ih
        rw [joinNL_cons_cons]
        simp [ih]
    · cases h : splitOnNL rest with
      | nil => exact absurd h (splitOnNL_ne_nil rest)
      | cons l ls =>
        rw [h] at ih
        cases ls with
        | nil => simp [joinNL] at ih ⊢; exact ih
        | cons l' ls' =>
          rw [joinNL_cons_cons] at ih ⊢
          simp [ih]

theorem joinNL_append :
    ∀ (a : List Str), a ≠ [] → ∀ (b : List Str), b ≠ [] →
      joinNL (a ++ b) = joinNL a ++ '\n' :: joinNL b := by
  intro a
  induction a with
  | nil => intro h; exact absurd rfl h
  | cons l ls ih =>
    intro _ b hb
    cases ls with
    | nil =>
      cases b with
      | nil => exact absurd rfl hb
      | cons m ms => simp [joinNL_cons_cons, joinNL]
    | cons l' ls' =>
      have ih' := ih (by simp) b hb
      simp only [List.cons_append] at ih' ⊢
      simp only [joinNL_cons_cons]
      rw [ih']
      simp [List.append_assoc]

theorem trackSize_nil : trackSize [] = 0 := rfl

theorem trackSize_cons (l : Str) (ls : List Str) :
    trackSize (l :: ls) = (utf8Len l + 1) + trackSize ls := by
  simp [trackSize]

theorem trackSize_append_single (cur : List Str) (l : Str) :
    trackSize (cur ++ [l]) = trackSize cur + (utf8Len l + 1) := by
  simp [trackSize]

theorem utf8Len_joinNL_le_trackSize :
    ∀ cur : List Str, utf8Len (joinNL cur) ≤ trackSize cur := by
  intro cur
  induction cur with
  | nil => simp [joinNL, utf8Len, trackSize]
  | cons l ls ih =>
    cases ls with
    | nil => simp [joinNL, trackSize, utf8Len]
    | cons l' ls' =>
      rw [joinNL_cons_cons, trackSize_cons, utf8Len_append, utf8Len_cons]
      have : ('\n').utf8Size = 1 := rfl
      omega

theorem trackSize_splitOnNL (s : Str) :
    trackSize (splitOnNL s) = utf8Len s + 1 := by
  induction s with
  | nil => simp [splitOnNL, trackSize, utf8Len]
  | cons c rest ih =>
    simp only [splitOnNL]
    split
    · rename_i hc
      subst hc
      rw [trackSize_cons, ih, utf8Len_cons]
      have h1 : ('\n').utf8Size = 1 := rfl
      have h2 : utf8Len ([] : Str) = 0 := rfl
      omega
    · cases h : splitOnNL rest with
      | nil => exact absurd h (splitOnNL_ne_nil rest)
      | cons l ls =>
        rw [h] at ih
        rw [trackSize_cons, utf8Len_cons]
        rw [trackSize_cons] at ih
        rw [utf8Len_cons]
        omega

theorem sliceChunks_eq_nil (limit : Nat) (line : Str)
    (h : line = [] ∨ limit = 0) : sliceChunks limit line = [] := by
  rcases h with h | h
  · subst h
    have hz : (limit - 1) / limit = 0 := by
      cases limit with
      | zero => rfl
      | succ n => exact Nat.div_eq_of_lt (by omega)
    simp [sliceChunks, hz]
  · subst h
    simp [sliceChunks]

theorem sliceChunks_cons (limit : Nat) (line : Str)
    (hline : line ≠ []) (hl : limit ≠ 0) :
    sliceChunks limit line =
      line.take limit :: sliceChunks limit (line.drop limit) := by
  have hlen : 0 < line.length := List.length_pos.mpr hline
  have hlp : 0 < limit := Nat.pos_of_ne_zero hl
  rw [sliceChunks, sliceChunks]
  have hk : (line.length + limit - 1) / limit = (line.length - 1) / limit + 1 := by
    have he : line.length + limit - 1 = (line.length - 1) + limit := by omega
    rw [he, Nat.add_div_right _ hlp]
  have hk2 : ((line.drop limit).length + limit - 1) / limit
      = (line.length - 1) / limit := by
    rw [List.length_drop]
    by_cases hc : line.length ≤ limit
    · have h1 : line.length - limit = 0 := by omega
      rw [h1]
      have h2 : ((0 : Nat) + limit - 1) / limit = 0 := Nat.div_eq_of_lt (by omega)
      rw [h2]
      exact (Nat.div_eq_of_lt (by omega)).symm
    · push_neg at hc
      have h1 : line.length - limit + limit - 1 = (line.length - 1 - limit) + limit := by
        omega
      rw [h1, Nat.add_div_right _ hlp]
      have h2 : line.length - 1 = (line.length - 1 - limit) + limit := by omega
      conv_rhs => rw [h2, Nat.add_div_right _ hlp]
  rw [hk, hk2, List.range_succ_eq_map, List.map_cons, List.map_map]
  congr 1
  · simp
  · apply List.map_congr_left
    intro j _
    simp only [Function.comp, List.drop_drop]
    have h3 : Nat.succ j * limit = limit + j * limit := by
      rw [Nat.succ_mul]
      omega
    rw [h3, Nat.add_comm limit (j * limit)]

theorem sliceChunks_ne_nil (limit : Nat) (line : Str)
    (hline : line ≠ []) (hl : limit ≠ 0) : sliceChunks limit line ≠ [] := by
  rw [sliceChunks_cons limit line hline hl]
  simp

theorem sliceChunks_flatten (limit : Nat) (hl : limit ≠ 0) (line : Str) :
    (sliceChunks limit line).flatten = line := by
  by_cases hline : line = []
  · subst hline
    rw [sliceChunks_eq_nil limit [] (Or.inl rfl)]
    rfl
  · have hlt : (line.drop limit).length < line.length := by
      have hp : 0 < line.length := List.length_pos.mpr hline
      have hk : 0 < limit := Nat.pos_of_ne_zero hl
      simp [List.length_drop]
      omega
    rw [sliceChunks_cons limit line hline hl]
    simp only [List.flatten_cons]
    rw [sliceChunks_flatten limit hl (line.drop limit)]
    exact List.take_append_drop limit line
termination_by line.length
decreasing_by
  exact hlt

theorem sliceChunks_mem_length (limit : Nat) (line : Str) (s : Str)
    (hs : s ∈ sliceChunks limit line) : s.length ≤ limit := by
  rw [sliceChunks] at hs
  rcases List.mem_map.mp hs with ⟨j, _, hj⟩
  rw [← hj]
  exact List.length_take_le limit _

theorem sliceChunks_length_ge_two (limit : Nat) (line : Str)
    (hl : limit ≠ 0) (hlen : limit < line.length) :
    2 ≤ (sliceChunks limit line).length := by
  have hlp : 0 < limit := Nat.pos_of_ne_zero hl
  rw [sliceChunks, List.length_map, List.length_range]
  rw [Nat.le_div_iff_mul_le hlp]
  omega

theorem chunkLines_ne_nil :
    ∀ (ls : List Str) (cur : List Str) (s : Nat), ls ≠ [] ∨ cur ≠ [] →
      chunkLines ls cur s ≠ [] := by
  intro ls
  induction ls with
  | nil =>
    intro cur s h
    rcases h with h | h
    · exact absurd rfl h
    · simp [chunkLines, h]
  | cons line rest ih =>
    intro cur s _
    simp only [chunkLines]
    split
    · rename_i hforce
      have hline : line ≠ [] := by
        intro he
        subst he
        simp [utf8Len, MAX_BYTE_LENGTH] at hforce
      have hs := sliceChunks_ne_nil (MAX_BYTE_LENGTH / 4) line hline (by norm_num [MAX_BYTE_LENGTH])
      intro hcontra
      rcases List.append_eq_nil.mp hcontra with ⟨h1, _⟩
      rcases List.append_eq_nil.mp h1 with ⟨_, h3⟩
      exact hs h3
    · split
      · simp
      · exact ih (cur ++ [line]) _ (Or.inr (by simp))

theorem joinNL_cons_of_ne_nil (x : Str) (ys : List Str) (h : ys ≠ []) :
    joinNL (x :: ys) = x ++ '\n' :: joinNL ys := by
  cases ys with
  | nil => exact absurd rfl h
  | cons y ys' => exact joinNL_cons_cons x y ys'

theorem chunkLines_reconstruct :
    ∀ (ls cur : List Str) (s : Nat), cur ≠ [] →
      (∀ l ∈ ls, utf8Len l + 1 ≤ MAX_BYTE_LENGTH) →
      joinNL (chunkLines ls cur s) = joinNL (cur ++ ls) := by
  intro ls
  induction ls with
  | nil =>
    intro cur s hcur _
    simp [chunkLines, hcur, joinNL]
  | cons line rest ih =>
    intro cur s hcur hall
    have hline : utf8Len line + 1 ≤ MAX_BYTE_LENGTH := hall line (by simp)
    have hrest : ∀ l ∈ rest, utf8Len l + 1 ≤ MAX_BYTE_LENGTH :=
      fun l hl => hall l (by simp [hl])
    simp only [chunkLines]
    rw [if_neg (by omega)]
    split
    · have hne := chunkLines_ne_nil rest [line] (utf8Len line + 1) (Or.inr (by simp))
      rw [joinNL_cons_of_ne_nil _ _ hne]
      rw [ih [line] (utf8Len line + 1) (by simp) hrest]
      rw [joinNL_append cur hcur (line :: rest) (by simp)]
      simp
    · rw [ih (cur ++ [line]) (s + (utf8Len line + 1)) (by simp) hrest]
      simp [List.append_assoc]

theorem chunkLines_reconstruct_start (ls : List Str) (hne : ls ≠ [])
    (hall : ∀ l ∈ ls, utf8Len l + 1 ≤ MAX_BYTE_LENGTH) :
    joinNL (chunkLines ls [] 0) = joinNL ls := by
  cases ls with
  | nil => exact absurd rfl hne
  | cons line rest =>
    have hline : utf8Len line + 1 ≤ MAX_BYTE_LENGTH := hall line (by simp)
    have hrest : ∀ l ∈ rest, utf8Len l + 1 ≤ MAX_BYTE_LENGTH :=
      fun l hl => hall l (by simp [hl])
    simp only [chunkLines]
    rw [if_neg (by omega), if_neg (by omega)]
    rw [chunkLines_reconstruct rest ([] ++ [line]) (0 + (utf8Len line + 1)) (by simp) hrest]
    simp

theorem chunkLinesT_erase :
    ∀ (ls cur : List Str) (s : Nat),
      (chunkLinesT ls cur s).map Prod.snd = chunkLines ls cur s := by
  intro ls
  induction ls with
  | nil =>
    intro cur s
    by_cases h : cur = [] <;> simp [chunkLinesT, chunkLines, h]
  | cons line rest ih =>
    intro cur s
    simp only [chunkLinesT, chunkLines]
    split
    · by_cases h : cur = [] <;>
        simp [h, List.map_append, List.map_map, ih, Function.comp]
    · split
      · simp [ih]
      · exact ih (cur ++ [line]) (s + (utf8Len line + 1))

theorem chunkLinesT_bound :
    ∀ (ls cur : List Str) (s : Nat), s = trackSize cur → s ≤ MAX_BYTE_LENGTH →
      ∀ p ∈ chunkLinesT ls cur s, p.1 = false → utf8Len p.2 ≤ MAX_BYTE_LENGTH := by
  intro ls
  induction ls with
  | nil =>
    intro cur s htr hle p hp _
    by_cases h : cur = []
    · simp [chunkLinesT, h] at hp
    · simp [chunkLinesT, h] at hp
      subst hp
      simp only []
      calc utf8Len (joinNL cur) ≤ trackSize cur := utf8Len_joinNL_le_trackSize cur
        _ ≤ MAX_BYTE_LENGTH := by omega
  | cons line rest ih =>
    intro cur s htr hle p hp hfalse
    simp only [chunkLinesT] at hp
    split at hp
    · rw [List.mem_append, List.mem_append] at hp
      rcases hp with (hp | hp) | hp
      · by_cases h : cur = []
        · simp [h] at hp
        · simp [h] at hp
          subst hp
          calc utf8Len (joinNL cur) ≤ trackSize cur := utf8Len_joinNL_le_trackSize cur
            _ ≤ MAX_BYTE_LENGTH := by omega
      · rcases List.mem_map.mp hp with ⟨sl, _, hsl⟩
        rw [← hsl] at hfalse
        simp at hfalse
      · exact ih [] 0 rfl (by norm_num [MAX_BYTE_LENGTH]) p hp hfalse
    · rename_i hover
      split at hp
      · rcases List.mem_cons.mp hp with hp | hp
        · subst hp
          calc utf8Len (joinNL cur) ≤ trackSize cur := utf8Len_joinNL_le_trackSize cur
            _ ≤ MAX_BYTE_LENGTH := by omega
        · refine ih [line] (utf8Len line + 1) (by simp [trackSize]) (by omega) p hp hfalse
      · rename_i hfit
        refine ih (cur ++ [line]) (s + (utf8Len line + 1))
          (by rw [trackSize_append_single]; omega) (by omega) p hp hfalse

theorem chunkLines_count :
    ∀ (ls cur : List Str) (s : Nat), s = trackSize cur → s ≤ MAX_BYTE_LENGTH →
      (chunkLines ls cur s).length ≤ 1 →
      trackSize cur + trackSize ls ≤ MAX_BYTE_LENGTH + 1 := by
  intro ls
  induction ls with
  | nil =>
    intro cur s htr hle _
    rw [trackSize_nil]
    omega
  | cons line rest ih =>
    intro cur s htr hle hlen
    simp only [chunkLines] at hlen
    split at hlen
    · rename_i hover
      have hline : line ≠ [] := by
        intro he
        subst he
        simp [utf8Len, MAX_BYTE_LENGTH] at hover
      have hlim : (MAX_BYTE_LENGTH / 4) ≠ 0 := by norm_num [MAX_BYTE_LENGTH]
      have hslice := sliceChunks_ne_nil (MAX_BYTE_LENGTH / 4) line hline hlim
      by_cases hcur : cur = []
      · subst hcur
        rw [trackSize_nil] at htr
        subst htr
        simp only [if_pos rfl, List.nil_append, List.length_append] at hlen
        have hslen : 1 ≤ (sliceChunks (MAX_BYTE_LENGTH / 4) line).length := by
          cases hsc : sliceChunks (MAX_BYTE_LENGTH / 4) line with
          | nil => exact absurd hsc hslice
          | cons a b => simp
        have hrec0 : (chunkLines rest [] 0).length = 0 := by omega
        have hrest : rest = [] := by
          by_contra hne
          exact chunkLines_ne_nil rest [] 0 (Or.inl hne) (List.length_eq_zero.mp hrec0)
        have hnot2 : ¬ (2 ≤ (sliceChunks (MAX_BYTE_LENGTH / 4) line).length) := by omega
        have hlensmall : line.length ≤ MAX_BYTE_LENGTH / 4 := by
          by_contra hgt
          exact hnot2 (sliceChunks_length_ge_two (MAX_BYTE_LENGTH / 4) line hlim (by omega))
        have hbytes : utf8Len line ≤ 4 * line.length := utf8Len_le_four_mul_length line
        subst hrest
        rw [trackSize_nil, trackSize_cons, trackSize_nil]
        have hq : MAX_BYTE_LENGTH / 4 = 500 := by norm_num [MAX_BYTE_LENGTH]
        rw [hq] at hlensmall
        norm_num [MAX_BYTE_LENGTH]
        omega
      · exfalso
        rw [if_neg hcur] at hlen
        have hslen : 1 ≤ (sliceChunks (MAX_BYTE_LENGTH / 4) line).length := by
          cases hsc : sliceChunks (MAX_BYTE_LENGTH / 4) line with
          | nil => exact absurd hsc hslice
          | cons a b => simp
        rw [List.length_append, List.length_append] at hlen
        simp only [List.length_singleton] at hlen
        omega
    · rename_i hover
      split at hlen
      · exfalso
        have hne := chunkLines_ne_nil rest [line] (utf8Len line + 1) (Or.inr (by simp))
        have : 1 ≤ (chunkLines rest [line] (utf8Len line + 1)).length := by
          cases hc : chunkLines rest [line] (utf8Len line + 1) with
          | nil => exact absurd hc hne
          | cons a b => simp
        simp only [List.length_cons] at hlen
        omega
      · rename_i hfit
        have := ih (cur ++ [line]) (s + (utf8Len line + 1))
          (by rw [trackSize_append_single]; omega) (by omega) hlen
        rw [trackSize_append_single] at this
        rw [trackSize_cons]
        omega

theorem utf8Len_truncNotice : utf8Len truncNotice = 12 := by decide

theorem utf8Len_finalizeMsg_le (p : Str) : utf8Len (finalizeMsg p) ≤ HARD_MAX := by
  rw [finalizeMsg]
  split
  · rw [utf8Len_append, utf8Len_truncNotice]
    have h1 : utf8Len (p.take 1000) ≤ 4 * (p.take 1000).length :=
      utf8Len_le_four_mul_length _
    have h2 : (p.take 1000).length ≤ 1000 := List.length_take_le 1000 p
    norm_num [HARD_MAX]
    omega
  · rename_i h
    omega

theorem filter_all_iff {α : Type} (p : α → Bool) (l : List α) :
    ((l.filter p).length == l.length) = true ↔ ∀ a ∈ l, p a = true := by
  rw [beq_iff_eq]
  constructor
  · intro h
    exact List.filter_eq_self.mp (List.Sublist.eq_of_length (List.filter_sublist l) h)
  · intro h
    rw [List.filter_eq_self.mpr h]

theorem deliverBool_iff (d : Str → DeliveryOutcome) (m : Str) :
    deliverBool d m = true ↔ d m = .delivered := by
  rw [deliverBool]
  cases d m <;> simp

theorem sentMessages_length (content : Str) :
    (sentMessages content).length = (wechatChunks content).length := by
  rw [sentMessages, List.length_map, List.length_range]

theorem sentMessages_getD (content : Str) (i : Nat)
    (hi : i < (wechatChunks content).length) :
    (sentMessages content).getD i [] =
      sentMessage i (wechatChunks content).length
        ((wechatChunks content).getD i []) := by
  have hlen : i < (sentMessages content).length := by
    rw [sentMessages_length]
    exact hi
  rw [List.getD_eq_getElem _ _ hlen]
  simp only [sentMessages, List.getElem_map, List.getElem_range]

/-! Claim theorems. -/

set_option maxRecDepth 100000

/-- C1: for every content entering the chunked path with the 2000-byte
budget, if no line (counted with its trailing newline) exceeds 2000
UTF-8 bytes, joining the emitted chunks with the newline join rule
reproduces the content exactly. -/
theorem C1_chunk_reconstruction (content : Str)
    (h : ∀ l ∈ splitOnNL content, utf8Len l + 1 ≤ MAX_BYTE_LENGTH) :
    joinNL (wechatChunks content) = content := by
  rw [wechatChunks]
  rw [chunkLines_reconstruct_start (splitOnNL content) (splitOnNL_ne_nil content) h]
  exact joinNL_splitOnNL content

/-- Witness for C1 at the content "ab\ncd". -/
theorem C1_chunk_reconstruction_witness :
    (∀ l ∈ splitOnNL ['a', 'b', '\n', 'c', 'd'],
      utf8Len l + 1 ≤ MAX_BYTE_LENGTH)
    ∧ joinNL (wechatChunks ['a', 'b', '\n', 'c', 'd'])
        = ['a', 'b', '\n', 'c', 'd'] :=
  ⟨by decide, C1_chunk_reconstruction ['a', 'b', '\n', 'c', 'd'] (by decide)⟩

/-- C2: for every input content, every chunk that the line-accumulation
(non-forced-slice) path emits is at most 2000 UTF-8 bytes; the tagged
chunker is the same algorithm (its tags erase to wechatChunks). -/
theorem C2_accumulated_chunks_within_budget (content : Str) :
    (wechatChunksT content).map Prod.snd = wechatChunks content
    ∧ ∀ p ∈ wechatChunksT content, p.1 = false →
        utf8Len p.2 ≤ MAX_BYTE_LENGTH :=
  ⟨chunkLinesT_erase (splitOnNL content) [] 0,
   fun p hp =>
     chunkLinesT_bound (splitOnNL content) [] 0 rfl
       (by norm_num [MAX_BYTE_LENGTH]) p hp⟩

/-- Witness for C2 at the content "a". -/
theorem C2_accumulated_chunks_within_budget_witness :
    (false, ['a']) ∈ wechatChunksT ['a'] ∧ utf8Len ['a'] ≤ MAX_BYTE_LENGTH :=
  ⟨by decide,
   (C2_accumulated_chunks_within_budget ['a']).2 (false, ['a']) (by decide) rfl⟩

/-- C3: when the chunked path produces more than one chunk, the 0-based
i-th wire message is the marker line "(i+1/N)" followed by a newline
and the i-th chunk (with the last-resort truncation applied by
finalizeMsg after re-measuring), and every wire message is at most
4096 UTF-8 bytes. -/
theorem C3_pagination_marker_and_hard_max (content : Str)
    (hN : 1 < (wechatChunks content).length)
    (i : Nat) (hi : i < (wechatChunks content).length) :
    (sentMessages content).getD i [] =
      finalizeMsg (pageMarker (i + 1) (wechatChunks content).length ++
        '\n' :: (wechatChunks content).getD i [])
    ∧ utf8Len ((sentMessages content).getD i []) ≤ HARD_MAX := by
  have hg := sentMessages_getD content i hi
  refine ⟨?_, ?_⟩
  · rw [hg, sentMessage, paginateChunk, if_pos hN]
  · rw [hg]
    exact utf8Len_finalizeMsg_le _

/-- Witness for C3 at a 2001-byte content producing three chunks. -/
theorem C3_pagination_marker_and_hard_max_witness :
    1 < (wechatChunks sampleOverBudget).length
    ∧ 0 < (wechatChunks sampleOverBudget).length
    ∧ ((sentMessages sampleOverBudget).getD 0 [] =
        finalizeMsg (pageMarker 1 (wechatChunks sampleOverBudget).length ++
          '\n' :: (wechatChunks sampleOverBudget).getD 0 [])
      ∧ utf8Len ((sentMessages sampleOverBudget).getD 0 []) ≤ HARD_MAX) := by
  have h1 : 1 < (wechatChunks sampleOverBudget).length := by decide
  exact ⟨h1, by omega,
    C3_pagination_marker_and_hard_max sampleOverBudget h1 0 (by omega)⟩

/-- C4: on the chunked path every chunk message is attempted regardless
of the outcomes of the others, and the verdict is true exactly when
every message was delivered; the summary-plus-per-stock batch attempts
one send_to_wechat call for the summary and one per stock message no
matter what the delivery outcomes are. -/
theorem C4_batch_isolation_and_verdict (url : Option Str)
    (content summary : Str) (stockMsgs : List Str)
    (d : Str → DeliveryOutcome)
    (hu : is_available url = true) (hc : MAX_BYTE_LENGTH < utf8Len content) :
    (sendToWechat url content d).1 = sentMessages content
    ∧ ((sendToWechat url content d).2 = true ↔
        ∀ m ∈ sentMessages content, d m = .delivered)
    ∧ (sendBatch url summary stockMsgs d).length = 1 + stockMsgs.length := by
  have hnot : ¬ (is_available url = false) := by simp [hu]
  have hnle : ¬ (utf8Len content ≤ MAX_BYTE_LENGTH) := by omega
  refine ⟨?_, ?_, ?_⟩
  · rw [sendToWechat, if_neg hnot, if_neg hnle]
  · rw [sendToWechat, if_neg hnot, if_neg hnle]
    show (((sentMessages content).filter (deliverBool d)).length ==
        (sentMessages content).length) = true ↔ _
    rw [filter_all_iff]
    constructor
    · intro h m hm
      exact (deliverBool_iff d m).mp (h m hm)
    · intro h m hm
      exact (deliverBool_iff d m).mpr (h m hm)
  · rw [sendBatch, if_neg hnot]
    simp only [List.length_cons, List.length_map]
    omega

/-- Witness for C4 at a 2004-byte content with all deliveries succeeding. -/
theorem C4_batch_isolation_and_verdict_witness :
    is_available (some ['u']) = true
    ∧ MAX_BYTE_LENGTH < utf8Len (List.replicate 501 '𠀀')
    ∧ ((sendToWechat (some ['u']) (List.replicate 501 '𠀀')
          (fun _ => DeliveryOutcome.delivered)).1
        = sentMessages (List.replicate 501 '𠀀')
      ∧ ((sendToWechat (some ['u']) (List.replicate 501 '𠀀')
            (fun _ => DeliveryOutcome.delivered)).2 = true ↔
          ∀ m ∈ sentMessages (List.replicate 501 '𠀀'),
            (fun _ => DeliveryOutcome.delivered) m = .delivered)
      ∧ (sendBatch (some ['u']) [] []
          (fun _ => DeliveryOutcome.delivered)).length
          = 1 + ([] : List Str).length) :=
  ⟨by decide, by decide,
   C4_batch_isolation_and_verdict (some ['u']) (List.replicate 501 '𠀀')
     [] [] (fun _ => DeliveryOutcome.delivered) (by decide) (by decide)⟩

/-- C5 counterexample: the HTTP status 202 is 2xx and the remote error
code is 0, yet the code reports failure, because it compares the
status to 200 exactly, refuting the claim as stated. -/
theorem C5_counterexample :
    (200 ≤ 202 ∧ 202 < 300) ∧ classifyResponse 202 (some 0) = false := by
  decide

/-- C5 amended: delivering a single message reports success if and only
if the HTTP status equals 200 exactly (not any 2xx) and the integer
error code of the JSON body is present and 0. -/
theorem C5_success_iff_status_200_and_errcode_zero
    (status : Nat) (errcode : Option Int) :
    classifyResponse status errcode = true ↔
      status = 200 ∧ errcode = some 0 := by
  rw [classifyResponse.eq_def]
  by_cases h : status = 200
  · subst h
    cases errcode with
    | none => simp
    | some v => simp [beq_iff_eq]
  · simp [h]

/-- C6 counterexample: a content exactly one byte over the 2000-byte
budget (a newline, a 1999-byte line, a newline) yields three chunks,
not exactly two, refuting the second half of the claim as stated. -/
theorem C6_counterexample :
    utf8Len sampleOverBudget = MAX_BYTE_LENGTH + 1
    ∧ (wechatChunks sampleOverBudget).length = 3
    ∧ (wechatChunks sampleOverBudget).length ≠ 2 := by
  refine ⟨by decide, by decide, ?_⟩
  have h : (wechatChunks sampleOverBudget).length = 3 := by decide
  omega

/-- C6 amended: a content of at most 2000 UTF-8 bytes (including
exactly 2000) is delivered as exactly one message, its text unmodified
and with no pagination marker; a content over the budget (in
particular one byte over) yields at least two segments - but not
always exactly two. -/
theorem C6_boundary_amended (content : Str) (d : Str → DeliveryOutcome)
    (url : Option Str) :
    (is_available url = true → utf8Len content ≤ MAX_BYTE_LENGTH →
      sendToWechat url content d = ([content], deliverBool d content))
    ∧ (MAX_BYTE_LENGTH < utf8Len content →
        2 ≤ (wechatChunks content).length) := by
  constructor
  · intro hu hle
    have hnot : ¬ (is_available url = false) := by simp [hu]
    rw [sendToWechat, if_neg hnot, if_pos hle]
  · intro hgt
    by_contra hlt
    push_neg at hlt
    have hle1 : (chunkLines (splitOnNL content) [] 0).length ≤ 1 := by
      rw [wechatChunks] at hlt
      omega
    have hcount := chunkLines_count (splitOnNL content) [] 0 rfl
      (by norm_num [MAX_BYTE_LENGTH]) hle1
    rw [trackSize_nil, trackSize_splitOnNL] at hcount
    omega

/-- Witness for C6 amended: a 2-byte content goes out unmodified as one
message, and the 2001-byte sample yields at least two chunks. -/
theorem C6_boundary_amended_witness :
    sendToWechat (some ['u']) ['h', 'i'] (fun _ => DeliveryOutcome.delivered)
      = ([['h', 'i']], true)
    ∧ 2 ≤ (wechatChunks sampleOverBudget).length := by
  refine ⟨?_, ?_⟩
  · have h := (C6_boundary_amended ['h', 'i']
      (fun _ => DeliveryOutcome.delivered) (some ['u'])).1 (by decide) (by decide)
    rw [h]
    rfl
  · exact (C6_boundary_amended sampleOverBudget
      (fun _ => DeliveryOutcome.delivered) (some ['u'])).2 (by decide)

/-- C7 counterexample: no input line whatsoever can make a forced-slice
segment exceed the 2000-byte target budget: the claim asserts such a
line exists, and its negation holds, because 500 codepoints of at most
4 UTF-8 bytes each never exceed 2000 bytes. -/
theorem C7_counterexample :
    ¬ ∃ line : Str, ∃ s ∈ sliceChunks (MAX_BYTE_LENGTH / 4) line,
        MAX_BYTE_LENGTH < utf8Len s := by
  rintro ⟨line, s, hs, hgt⟩
  have h1 := sliceChunks_mem_length (MAX_BYTE_LENGTH / 4) line s hs
  have h2 := utf8Len_le_four_mul_length s
  have h3 : MAX_BYTE_LENGTH / 4 = 500 := by norm_num [MAX_BYTE_LENGTH]
  rw [h3] at h1
  have h4 : MAX_BYTE_LENGTH = 2000 := by norm_num [MAX_BYTE_LENGTH]
  omega

/-- C7 amended: every segment produced by the forced-slice branch is at
most 2000 UTF-8 bytes: the 500-codepoint ceiling times the 4-byte
UTF-8 maximum equals the budget exactly, so the heuristic cannot
overshoot. -/
theorem C7_forced_slices_within_budget (line s : Str)
    (hs : s ∈ sliceChunks (MAX_BYTE_LENGTH / 4) line) :
    utf8Len s ≤ MAX_BYTE_LENGTH := by
  have h1 := sliceChunks_mem_length (MAX_BYTE_LENGTH / 4) line s hs
  have h2 := utf8Len_le_four_mul_length s
  have h3 : MAX_BYTE_LENGTH / 4 = 500 := by norm_num [MAX_BYTE_LENGTH]
  rw [h3] at h1
  have h4 : MAX_BYTE_LENGTH = 2000 := by norm_num [MAX_BYTE_LENGTH]
  omega

/-- Witness for C7 amended at the one-slice line "a". -/
theorem C7_forced_slices_within_budget_witness :
    ['a'] ∈ sliceChunks (MAX_BYTE_LENGTH / 4) ['a']
    ∧ utf8Len ['a'] ≤ MAX_BYTE_LENGTH :=
  ⟨by decide, C7_forced_slices_within_budget ['a'] ['a'] (by decide)⟩

/-- C8: for every line whose size (with trailing newline) exceeds the
budget, the forced-slice branch slices at fixed 500-codepoint
boundaries: the slices concatenate back to the line with every
codepoint kept whole (the embedding slices sequences of codepoints,
exactly like Python str slicing, so no multi-byte encoding is ever
split), and each slice has at most 2000 // 4 = 500 codepoints. -/
theorem C8_slices_whole_codepoints (line : Str)
    (hf : MAX_BYTE_LENGTH < utf8Len line + 1) :
    (sliceChunks (MAX_BYTE_LENGTH / 4) line).flatten = line
    ∧ ∀ s ∈ sliceChunks (MAX_BYTE_LENGTH / 4) line,
        s.length ≤ MAX_BYTE_LENGTH / 4 := by
  refine ⟨sliceChunks_flatten _ (by norm_num [MAX_BYTE_LENGTH]) line, ?_⟩
  intro s hs
  exact sliceChunks_mem_length _ line s hs

/-- Witness for C8 at a single 2004-byte line of 501 codepoints. -/
theorem C8_slices_whole_codepoints_witness :
    MAX_BYTE_LENGTH < utf8Len (List.replicate 501 '𠀀') + 1
    ∧ ((sliceChunks (MAX_BYTE_LENGTH / 4) (List.replicate 501 '𠀀')).flatten
        = List.replicate 501 '𠀀'
      ∧ ∀ s ∈ sliceChunks (MAX_BYTE_LENGTH / 4) (List.replicate 501 '𠀀'),
          s.length ≤ MAX_BYTE_LENGTH / 4) :=
  ⟨by decide, C8_slices_whole_codepoints (List.replicate 501 '𠀀') (by decide)⟩

/-- C9 counterexample: dispatching the empty content with a configured
webhook hands exactly one message (the empty string) to the
single-message sender, and the chunker applied to empty content yields
one empty segment - not zero segments and not a no-op as claimed. -/
theorem C9_counterexample :
    (sendToWechat (some ['u']) [] (fun _ => DeliveryOutcome.delivered)).1.length
      = 1
    ∧ (wechatChunks []).length = 1 := by
  decide

/-- C9 amended: dispatching empty content with a configured webhook is
not an error: it takes the short path and sends exactly one message
whose text is the empty string, unmodified and without marker; the
chunker applied to empty content would yield one empty segment. -/
theorem C9_empty_content_amended (url : Option Str)
    (d : Str → DeliveryOutcome) (hu : is_available url = true) :
    sendToWechat url [] d = ([[]], deliverBool d [])
    ∧ wechatChunks [] = [[]] := by
  refine ⟨?_, by decide⟩
  have hnot : ¬ (is_available url = false) := by simp [hu]
  rw [sendToWechat, if_neg hnot,
    if_pos (by decide : utf8Len [] ≤ MAX_BYTE_LENGTH)]

/-- Witness for C9 amended at the url "u". -/
theorem C9_empty_content_amended_witness :
    is_available (some ['u']) = true
    ∧ (sendToWechat (some ['u']) [] (fun _ => DeliveryOutcome.delivered)
        = ([[]], deliverBool (fun _ => DeliveryOutcome.delivered) [])
      ∧ wechatChunks [] = [[]]) :=
  ⟨by decide,
   C9_empty_content_amended (some ['u'])
     (fun _ => DeliveryOutcome.delivered) (by decide)⟩

/-- C10: when the webhook url is unconfigured (absent or empty),
send_to_wechat returns false with no message handed to the sender for
any content, and send_batch_notifications performs no send at all; no
exception is modelled because both functions return normally. -/
theorem C10_unconfigured_noop (url : Option Str) (content summary : Str)
    (stockMsgs : List Str) (d : Str → DeliveryOutcome)
    (hu : is_available url = false) :
    sendToWechat url content d = ([], false)
    ∧ sendBatch url summary stockMsgs d = [] := by
  refine ⟨?_, ?_⟩
  · rw [sendToWechat, if_pos hu]
  · rw [sendBatch, if_pos hu]

/-- Witness for C10 at the empty-string url. -/
theorem C10_unconfigured_noop_witness :
    is_available (some []) = false
    ∧ (sendToWechat (some []) ['x'] (fun _ => DeliveryOutcome.delivered)
        = ([], false)
      ∧ sendBatch (some []) ['s'] [['m']]
          (fun _ => DeliveryOutcome.delivered) = []) :=
  ⟨by decide,
   C10_unconfigured_noop (some []) ['x'] ['s'] [['m']]
     (fun _ => DeliveryOutcome.delivered) (by decide)⟩

end DailyStock
